import Mathlib

/-!
# ToggleWindow: hotkey registration and the window toggle loop

A shallow embedding of `ToggleWindow.cpp` (key-token resolution, the
combination parser inside `wmain`, `HotkeyManager`, `MessageLoop` and the
control flow of `wmain`) together with the properties proved about it.

Conventions of the embedding:

* a `std::wstring` is a `List Char`;
* `UINT` values are `Nat`, `int` values are `Int`, and the conversions between
  them (`toUINT`, `toInt`) are explicit.  The counter `hotkeyId` of `wmain` is
  an `Int` that is never wrapped: overflowing the `int` needs `2^31` accepted
  input lines and is undefined behaviour in C++;
* functions of the C runtime and of Win32 whose result depends on the machine
  (`VkKeyScan`, the classification of non-ASCII characters) are fields of
  `Host`; theorems quantify over every host;
* the answer of `::RegisterHotKey` is an input of the call that consults it;
* effects on the operating system are returned as explicit traces.
-/

namespace ToggleWindow

/-! ## Text and the host environment -/

/-- A `std::wstring`: a sequence of wide characters. -/
abbrev WString := List Char

/-- The machine dependent functions the program calls but does not define. -/
structure Host where
  /-- Win32 `VkKeyScan`: a `SHORT`, `-1` when the character has no key in the
  current keyboard layout, otherwise shift state in the high byte and virtual
  key code in the low byte. -/
  VkKeyScan : Char → Int
  /-- The value of `iswspace` on characters outside ASCII (locale specific). -/
  iswspaceWide : Char → Bool
  /-- The value of `towupper` on characters outside ASCII (locale specific). -/
  towupperWide : Char → Char

/-- C `iswspace`.  On ASCII the white-space characters are space and
`\t \n \v \f \r` in every locale; elsewhere the host decides. -/
def iswspace (H : Host) (ch : Char) : Bool :=
  if ch.toNat < 128 then
    ch.toNat == 32 || (9 ≤ ch.toNat && ch.toNat ≤ 13)
  else H.iswspaceWide ch

/-- C `towupper`.  On ASCII it maps `a`..`z` to `A`..`Z` and fixes the rest;
elsewhere the host decides. -/
def towupper (H : Host) (ch : Char) : Char :=
  if ch.toNat < 128 then
    (if 97 ≤ ch.toNat ∧ ch.toNat ≤ 122 then Char.ofNat (ch.toNat - 32) else ch)
  else H.towupperWide ch

/-! ## Constants of `windows.h` -/

/-- Value of `MOD_ALT` in `winuser.h`. -/
def MOD_ALT : Nat := 0x0001
/-- Value of `MOD_CONTROL` in `winuser.h`. -/
def MOD_CONTROL : Nat := 0x0002
/-- Value of `MOD_SHIFT` in `winuser.h`. -/
def MOD_SHIFT : Nat := 0x0004
/-- Value of `MOD_WIN` in `winuser.h`. -/
def MOD_WIN : Nat := 0x0008

/-- Value of `VK_BACK` in `winuser.h`. -/
def VK_BACK : Nat := 0x08
/-- Value of `VK_TAB` in `winuser.h`. -/
def VK_TAB : Nat := 0x09
/-- Value of `VK_RETURN` in `winuser.h`. -/
def VK_RETURN : Nat := 0x0D
/-- Value of `VK_ESCAPE` in `winuser.h`. -/
def VK_ESCAPE : Nat := 0x1B
/-- Value of `VK_SPACE` in `winuser.h`. -/
def VK_SPACE : Nat := 0x20
/-- Value of `VK_PRIOR` in `winuser.h`. -/
def VK_PRIOR : Nat := 0x21
/-- Value of `VK_NEXT` in `winuser.h`. -/
def VK_NEXT : Nat := 0x22
/-- Value of `VK_END` in `winuser.h`. -/
def VK_END : Nat := 0x23
/-- Value of `VK_HOME` in `winuser.h`. -/
def VK_HOME : Nat := 0x24
/-- Value of `VK_LEFT` in `winuser.h`. -/
def VK_LEFT : Nat := 0x25
/-- Value of `VK_UP` in `winuser.h`. -/
def VK_UP : Nat := 0x26
/-- Value of `VK_RIGHT` in `winuser.h`. -/
def VK_RIGHT : Nat := 0x27
/-- Value of `VK_DOWN` in `winuser.h`. -/
def VK_DOWN : Nat := 0x28
/-- Value of `VK_INSERT` in `winuser.h`. -/
def VK_INSERT : Nat := 0x2D
/-- Value of `VK_DELETE` in `winuser.h`. -/
def VK_DELETE : Nat := 0x2E
/-- Value of `VK_F1` in `winuser.h`. -/
def VK_F1 : Nat := 0x70

/-- Value of `WM_HOTKEY` in `winuser.h`. -/
def WM_HOTKEY : Nat := 0x0312
/-- Value of `WM_QUIT` in `winuser.h`. -/
def WM_QUIT : Nat := 0x0012
/-- Value of `SW_HIDE` in `winuser.h`. -/
def SW_HIDE : Nat := 0
/-- Value of `SW_SHOW` in `winuser.h`. -/
def SW_SHOW : Nat := 5

/-- Largest value of a C++ `int`. -/
def INT_MAX : Int := 2147483647
/-- Smallest value of a C++ `int`. -/
def INT_MIN : Int := -2147483648

/-! ## KeyToken resolver -/

/-- The table `modMap` of `GetModifierKey`. -/
def modMap : List (WString × Nat) :=
  [ ("Alt".toList, MOD_ALT),
    ("Ctrl".toList, MOD_CONTROL),
    ("Shift".toList, MOD_SHIFT),
    ("Win".toList, MOD_WIN) ]

/-- `GetModifierKey`: the mask bit of a modifier name, `0` for any other
string. -/
def GetModifierKey (modStr : WString) : Nat :=
  match modMap.lookup modStr with
  | some v => v
  | none => 0

/-- The table `keyMap` of `GetVirtualKey`. -/
def keyMap : List (WString × Nat) :=
  [ ("Backspace".toList, VK_BACK),
    ("Tab".toList, VK_TAB),
    ("Enter".toList, VK_RETURN),
    ("Esc".toList, VK_ESCAPE),
    ("Space".toList, VK_SPACE),
    ("Left".toList, VK_LEFT),
    ("Up".toList, VK_UP),
    ("Right".toList, VK_RIGHT),
    ("Down".toList, VK_DOWN),
    ("Insert".toList, VK_INSERT),
    ("Delete".toList, VK_DELETE),
    ("Home".toList, VK_HOME),
    ("End".toList, VK_END),
    ("PageUp".toList, VK_PRIOR),
    ("PageDown".toList, VK_NEXT) ]

/-- The value of an ASCII decimal digit. -/
def digitValue (ch : Char) : Nat := ch.toNat - 48

/-- The optional sign in front of the digits of a number: whether it is `-`,
and the text after the sign. -/
def readSign (s : WString) : Bool × WString :=
  match s with
  | '-' :: r => (true, r)
  | '+' :: r => (false, r)
  | _ => (false, s)

/-- `std::stoi(str)` in base 10; `none` stands for a thrown exception.
Leading white space is skipped, one optional sign is read, then the longest
run of decimal digits; whatever follows the digits is ignored.  No digit:
`std::invalid_argument`.  Value outside the range of `int`:
`std::out_of_range`. -/
def stoi (H : Host) (str : WString) : Option Int :=
  let signed := readSign (str.dropWhile (iswspace H))
  let ds := signed.2.takeWhile Char.isDigit
  if ds.isEmpty then none
  else
    let v : Nat := ds.foldl (fun a c => 10 * a + digitValue c) 0
    let r : Int := if signed.1 then -(v : Int) else (v : Int)
    if INT_MIN ≤ r ∧ r ≤ INT_MAX then some r else none

/-- `GetVirtualKey`: the virtual key code of a key name, `0` when the name is
not recognised. -/
def GetVirtualKey (H : Host) (keyStr : WString) : Nat :=
  let single : Option Nat :=
    match keyStr with
    | [c] =>
      let vkCode := H.VkKeyScan (towupper H c)
      if vkCode ≠ -1 then some (vkCode % 256).toNat else none
    | _ => none
  match single with
  | some vk => vk
  | none =>
    match keyMap.lookup keyStr with
    | some v => v
    | none =>
      match keyStr with
      | 'F' :: rest =>
        if 1 < keyStr.length then
          match stoi H rest with
          | some fKeyNum =>
            if 1 ≤ fKeyNum ∧ fKeyNum ≤ 24 then (VK_F1 + fKeyNum - 1).toNat else 0
          | none => 0
        else 0
      | _ => 0

/-- A fragment of the `VkKeyScan` table of the US-English keyboard layout:
capital letters (typed with Shift), small letters, digits, the space bar and
`+` (Shift with `VK_OEM_PLUS`).  Characters outside the fragment are reported
as having no key. -/
def usVkKeyScan (ch : Char) : Int :=
  if 65 ≤ ch.toNat ∧ ch.toNat ≤ 90 then 0x100 + ch.toNat
  else if 97 ≤ ch.toNat ∧ ch.toNat ≤ 122 then ch.toNat - 32
  else if 48 ≤ ch.toNat ∧ ch.toNat ≤ 57 then ch.toNat
  else if ch = ' ' then 0x20
  else if ch = '+' then 0x1BB
  else -1

/-- A host with the US-English layout fragment and no white space or case
mapping outside ASCII. -/
def usHost : Host where
  VkKeyScan := usVkKeyScan
  iswspaceWide := fun _ => false
  towupperWide := fun c => c

/-! ## Hotkey registry -/

/-- The class `HotkeyManager`: its only member is the vector `hotkeyIds`. -/
structure HotkeyManager where
  hotkeyIds : List Int
deriving DecidableEq, Repr

/-- A freshly constructed `HotkeyManager`. -/
def HotkeyManager.new : HotkeyManager := ⟨[]⟩

/-- Conversion of a `UINT` to `int`: the value with the same 32 bits.  It is
what `push_back(id)` into the `std::vector<int>` does, and what passing `id` to
the `int id` parameter of `::RegisterHotKey` does. -/
def toInt (id : Nat) : Int :=
  if id % 4294967296 < 2147483648 then ((id % 4294967296 : Nat) : Int)
  else ((id % 4294967296 : Nat) : Int) - 4294967296

/-- Conversion of an `int` to `UINT`: the value modulo `2^32`. -/
def toUINT (i : Int) : Nat := (i % 4294967296).toNat

/-- `HotkeyManager::Register`.  `id` is the `UINT` argument, `osResult` the
value returned by `::RegisterHotKey(nullptr, id, fsModifiers, vk)`.  Returns
the `bool` result and the manager after the call; the vector receives the id
converted to `int`. -/
def HotkeyManager.Register (self : HotkeyManager) (osResult : Bool)
    (id : Nat) (_fsModifiers _vk : Nat) : Bool × HotkeyManager :=
  if osResult then
    (true, { self with hotkeyIds := self.hotkeyIds ++ [toInt id] })
  else
    (false, self)

/-- `Register` called with an `int` argument, as `wmain` calls it with
`hotkeyId`.  Every value of `int` is converted to `UINT` and handed to
`Register`.  An `id` outside the range of `int` stands for a counter that has
overflowed, which C++ leaves undefined; there the model goes on with the
unwrapped id. -/
def HotkeyManager.RegisterInt (self : HotkeyManager) (osResult : Bool)
    (id : Int) (fsModifiers vk : Nat) : Bool × HotkeyManager :=
  if INT_MIN ≤ id ∧ id ≤ INT_MAX then
    self.Register osResult (toUINT id) fsModifiers vk
  else if osResult then
    (true, { self with hotkeyIds := self.hotkeyIds ++ [id] })
  else
    (false, self)

/-- `HotkeyManager::UnregisterAll`.  Returns the manager after the call and the
ids passed to `::UnregisterHotKey`, in call order. -/
def HotkeyManager.UnregisterAll (self : HotkeyManager) : HotkeyManager × List Int :=
  ({ self with hotkeyIds := [] }, self.hotkeyIds.foldl (fun log id => log ++ [id]) [])

/-- One request handed to `Register`: mask, key code and the answer the
operating system gives to it. -/
structure Request where
  fsModifiers : Nat
  vk : Nat
  osResult : Bool
deriving DecidableEq, Repr

/-- The calls `hotkeyManager.Register(hotkeyId++, fsModifiers, vk)` of `wmain`
for a sequence of requests: returns the manager and the counter afterwards. -/
def registerAll : List Request → HotkeyManager × Int → HotkeyManager × Int
  | [], st => st
  | r :: rs, (m, hotkeyId) =>
    registerAll rs ((m.RegisterInt r.osResult hotkeyId r.fsModifiers r.vk).2, hotkeyId + 1)

/-- Run `UnregisterAll` `k` times in a row (explicit calls and the destructor);
returns the manager afterwards and every id passed to `::UnregisterHotKey`. -/
def teardowns : Nat → HotkeyManager → HotkeyManager × List Int
  | 0, m => (m, [])
  | k + 1, m =>
    let first := m.UnregisterAll
    let later := teardowns k first.1
    (later.1, first.2 ++ later.2)

/-- A sequence of `Register` calls made with `int` ids, as `wmain` makes them,
each with its request. -/
def registerEach : List (Int × Request) → HotkeyManager → HotkeyManager
  | [], m => m
  | c :: cs, m => registerEach cs (m.RegisterInt c.2.osResult c.1 c.2.fsModifiers c.2.vk).2

/-- The ids `hotkeyId++` hands out to a sequence of requests, starting from
`hotkeyId`. -/
def issueIds : Int → List Request → List (Int × Request)
  | _, [] => []
  | hotkeyId, r :: rs => (hotkeyId, r) :: issueIds (hotkeyId + 1) rs

/-! ## Toggle loop -/

/-- A call the program makes on the target window. -/
inductive WindowCall where
  | ShowWindow (nCmdShow : Nat)
  | SetForegroundWindow
deriving DecidableEq, Repr

/-- The target window as the program sees it: the answer of `IsWindowVisible`
and the calls made on the window so far. -/
structure Window where
  visible : Bool
  calls : List WindowCall
deriving DecidableEq, Repr

/-- Win32 `IsWindowVisible`. -/
def IsWindowVisible (w : Window) : Bool := w.visible

/-- Win32 `ShowWindow`: `SW_HIDE` hides the window, the other commands the
program uses show it. -/
def ShowWindow (w : Window) (nCmdShow : Nat) : Window :=
  { visible := nCmdShow != SW_HIDE, calls := w.calls ++ [WindowCall.ShowWindow nCmdShow] }

/-- Win32 `SetForegroundWindow`. -/
def SetForegroundWindow (w : Window) : Window :=
  { w with calls := w.calls ++ [WindowCall.SetForegroundWindow] }

/-- The fields of `MSG` the program looks at, and the hotkey id in `wParam`. -/
structure MSG where
  message : Nat
  wParam : Nat
deriving DecidableEq, Repr

/-- The body of the `while` loop of `MessageLoop`. -/
def dispatch (targetWindow : Window) (msg : MSG) : Window :=
  if msg.message = WM_HOTKEY then
    if IsWindowVisible targetWindow then
      ShowWindow targetWindow SW_HIDE
    else
      SetForegroundWindow (ShowWindow targetWindow SW_SHOW)
  else targetWindow

/-- `MessageLoop` on the messages `GetMessage` retrieves, in order.
`GetMessage` returns `0` exactly when it retrieves `WM_QUIT` (its error value
`-1` is for an invalid window handle or message pointer, and the call passes a
null handle and the address of a local); when the queue holds no further
message it blocks, so the loop does not return (`none`). -/
def MessageLoop (targetWindow : Window) : List MSG → Option Window
  | [] => none
  | msg :: rest =>
    if msg.message = WM_QUIT then some targetWindow
    else MessageLoop (dispatch targetWindow msg) rest

/-! ## Combination parser and `wmain` -/

/-- Lines the program writes to the console (prompts are left out). -/
inductive Console where
  | invalidWindowHandle
  | invalidKeyOrModifier (token : WString)
  | multipleKeysSpecified (token : WString)
  | invalidKeyCombination
  | hotkeyRegistered
  | failedToRegister
  | noHotkeysRegistered
  | listening
deriving DecidableEq, Repr

/-- The erase/remove_if statement under the comment "Remove spaces". -/
def removeSpaces (H : Host) (input : WString) : WString :=
  input.filter (fun ch => !iswspace H ch)

/-- The `while` loop that cuts `input` at every `+` and the `push_back` after
it: the segments between consecutive `+` characters, empty ones included.
`tokenize_append` and `tokenize_single` below are the two cases of the loop:
`find` locates the first `+` and the text before it is pushed, or `find`
returns `npos` and the remaining text is pushed. -/
def tokenize : WString → List WString
  | [] => [[]]
  | c :: cs =>
    if c = '+' then [] :: tokenize cs
    else
      match tokenize cs with
      | [] => [[c]]
      | t :: ts => (c :: t) :: ts

/-- The local variables of one parse: `fsModifiers`, `vk`, `valid`, and the
console lines written by the token loop. -/
structure Parse where
  fsModifiers : Nat
  vk : Nat
  valid : Bool
  out : List Console
deriving DecidableEq, Repr

/-- The `for` loop over `tokens`; running off the end of the list is the normal
exit, the two `break`s return at once. -/
def tokenLoop (H : Host) : List WString → Parse → Parse
  | [], p => p
  | token :: rest, p =>
    let mod := GetModifierKey token
    if mod ≠ 0 then
      tokenLoop H rest { p with fsModifiers := p.fsModifiers ||| mod }
    else if p.vk = 0 then
      let vk := GetVirtualKey H token
      if vk = 0 then
        { p with vk := vk, valid := false, out := p.out ++ [Console.invalidKeyOrModifier token] }
      else
        tokenLoop H rest { p with vk := vk }
    else
      { p with valid := false, out := p.out ++ [Console.multipleKeysSpecified token] }

/-- White-space removal, tokenising and the token loop for one input line. -/
def parseCombination (H : Host) (input : WString) : Parse :=
  tokenLoop H (tokenize (removeSpaces H input))
    { fsModifiers := 0, vk := 0, valid := true, out := [] }

/-- One call of `HotkeyManager::Register` made by `wmain`, with its result. -/
structure RegisterCall where
  id : Int
  fsModifiers : Nat
  vk : Nat
  result : Bool
deriving DecidableEq, Repr

/-- The state of the input loop of `wmain`: the manager, the counter
`hotkeyId`, the `Register` calls made so far and the console lines written. -/
structure InputState where
  hotkeyManager : HotkeyManager
  hotkeyId : Int
  registerCalls : List RegisterCall
  out : List Console
deriving DecidableEq, Repr

/-- The state when the input loop is entered. -/
def InputState.init : InputState :=
  { hotkeyManager := HotkeyManager.new, hotkeyId := 1, registerCalls := [], out := [] }

/-- One line read from standard input, paired with the answer
`::RegisterHotKey` gives if the line leads to a registration attempt. -/
abbrev Line := WString × Bool

/-- One iteration of the input loop for a line other than `done`. -/
def processLine (H : Host) (st : InputState) (line : Line) : InputState :=
  let p := parseCombination H line.1
  if !p.valid || p.vk == 0 then
    { st with out := st.out ++ p.out ++ [Console.invalidKeyCombination] }
  else
    let r := st.hotkeyManager.RegisterInt line.2 st.hotkeyId p.fsModifiers p.vk
    { hotkeyManager := r.2,
      hotkeyId := st.hotkeyId + 1,
      registerCalls := st.registerCalls ++ [⟨st.hotkeyId, p.fsModifiers, p.vk, r.1⟩],
      out := st.out ++ p.out ++
        [if r.1 then Console.hotkeyRegistered else Console.failedToRegister] }

/-- The input loop of `wmain` on the lines of standard input.  It ends at the
first line equal to `done`.  When the lines run out first, `getline` keeps
yielding an empty line, which is rejected, and the loop never ends (`none`). -/
def inputLoop (H : Host) : List Line → InputState → Option InputState
  | [], _ => none
  | line :: rest, st =>
    if line.1 = "done".toList then some st
    else inputLoop H rest (processLine H st line)

/-- What a finished run of `wmain` leaves behind. -/
structure Exit where
  /-- The value returned by `wmain`. -/
  code : Int
  /-- Whether `MessageLoop` was entered. -/
  listened : Bool
  /-- The `Register` calls made, in order. -/
  registerCalls : List RegisterCall
  /-- The ids passed to `::UnregisterHotKey` by the destructor. -/
  unregistered : List Int
  /-- The target window at the end. -/
  window : Window
  /-- The console lines written. -/
  out : List Console
deriving DecidableEq, Repr

/-- `wmain` from the return of `SearchAndSelectWindow` on.  `isWindow` is the
answer of `IsWindow(targetWindow)`, `stdin` the remaining input lines, `msgs`
the messages `GetMessage` retrieves.  `none`: the run does not end. -/
def wmain (H : Host) (isWindow : Bool) (targetWindow : Window)
    (stdin : List Line) (msgs : List MSG) : Option Exit :=
  if !isWindow then
    some { code := 1, listened := false, registerCalls := [], unregistered := [],
           window := targetWindow, out := [Console.invalidWindowHandle] }
  else
    match inputLoop H stdin InputState.init with
    | none => none
    | some st =>
      if st.hotkeyId = 1 then
        some { code := 1, listened := false, registerCalls := st.registerCalls,
               unregistered := st.hotkeyManager.UnregisterAll.2,
               window := targetWindow,
               out := st.out ++ [Console.noHotkeysRegistered] }
      else
        match MessageLoop targetWindow msgs with
        | none => none
        | some w =>
          some { code := 0, listened := true, registerCalls := st.registerCalls,
                 unregistered := st.hotkeyManager.UnregisterAll.2,
                 window := w,
                 out := st.out ++ [Console.listening] }

/-! ## Vocabulary used to state the parser properties -/

/-- The four modifier names. -/
def modifierNames : List WString :=
  ["Alt".toList, "Ctrl".toList, "Shift".toList, "Win".toList]

/-- The bitwise OR of the mask bits of a list of tokens, on top of `fs`. -/
def orMods (fs : Nat) (ts : List WString) : Nat :=
  ts.foldl (fun a t => a ||| GetModifierKey t) fs

/-- Whether the input loop goes on to `Register` for a line: the negation of
the test `!valid || vk == 0`. -/
def accepted (H : Host) (line : Line) : Bool :=
  (parseCombination H line.1).valid && (parseCombination H line.1).vk != 0

/-- What the input loop maintains: the calls made so far carry the ids
`1 .. n`, in order, and belong to the accepted lines; the counter is one past
the last id; the live collection holds the ids of the successful calls. -/
structure InputInvariant (H : Host) (seen : List Line) (st : InputState) : Prop where
  ids : st.registerCalls.map (fun c => c.id)
          = List.map (fun k : Nat => (k : Int) + 1) (List.range st.registerCalls.length)
  requests : st.registerCalls.map (fun c => (c.fsModifiers, c.vk, c.result))
          = (seen.filter (accepted H)).map
              (fun l => ((parseCombination H l.1).fsModifiers, (parseCombination H l.1).vk, l.2))
  counter : st.hotkeyId = (st.registerCalls.length : Int) + 1
  live : st.hotkeyManager.hotkeyIds
          = (st.registerCalls.filter (fun c => c.result)).map (fun c => c.id)

/-! ## Properties of the registry -/

theorem toInt_toUINT (i : Int) (hlo : INT_MIN ≤ i) (hhi : i ≤ INT_MAX) :
    toInt (toUINT i) = i := by
  simp only [INT_MIN, INT_MAX] at hlo hhi
  have hnonneg : (0 : Int) ≤ i % 4294967296 := Int.emod_nonneg _ (by decide)
  have hcast : ((toUINT i : Nat) : Int) = i % 4294967296 := Int.toNat_of_nonneg hnonneg
  have hlt : i % 4294967296 < 4294967296 := Int.emod_lt_of_pos _ (by decide)
  have hsmall : toUINT i % 4294967296 = toUINT i := Nat.mod_eq_of_lt (by omega)
  unfold toInt
  rw [hsmall]
  split
  · omega
  · omega

theorem RegisterInt_eq (m : HotkeyManager) (osResult : Bool) (id : Int)
    (fsModifiers vk : Nat) :
    m.RegisterInt osResult id fsModifiers vk
      = if osResult then (true, ⟨m.hotkeyIds ++ [id]⟩) else (false, m) := by
  unfold HotkeyManager.RegisterInt
  split
  · rename_i h
    simp only [HotkeyManager.Register, toInt_toUINT id h.1 h.2]
  · rfl

@[simp] theorem unregister_log (ids : List Int) (acc : List Int) :
    ids.foldl (fun log id => log ++ [id]) acc = acc ++ ids := by
  induction ids generalizing acc with
  | nil => simp
  | cons a t ih => simp [ih]

theorem UnregisterAll_eq (m : HotkeyManager) :
    m.UnregisterAll = (⟨[]⟩, m.hotkeyIds) := by
  simp [HotkeyManager.UnregisterAll]

theorem teardowns_empty (k : Nat) : teardowns k ⟨[]⟩ = (⟨[]⟩, []) := by
  induction k with
  | zero => rfl
  | succ k ih => simp [teardowns, UnregisterAll_eq, ih]

theorem teardowns_succ (k : Nat) (m : HotkeyManager) :
    teardowns (k + 1) m = (⟨[]⟩, m.hotkeyIds) := by
  simp [teardowns, UnregisterAll_eq, teardowns_empty]

theorem registerEach_hotkeyIds (calls : List (Int × Request)) (m : HotkeyManager) :
    (registerEach calls m).hotkeyIds
      = m.hotkeyIds ++ (calls.filter (fun c => c.2.osResult)).map Prod.fst := by
  induction calls generalizing m with
  | nil => simp [registerEach]
  | cons c cs ih =>
    cases hc : c.2.osResult <;>
      simp [registerEach, RegisterInt_eq, hc, ih]

theorem registerAll_eq (reqs : List Request) (m : HotkeyManager) (hotkeyId : Int) :
    registerAll reqs (m, hotkeyId)
      = (registerEach (issueIds hotkeyId reqs) m, hotkeyId + reqs.length) := by
  induction reqs generalizing m hotkeyId with
  | nil => simp [registerAll, registerEach, issueIds]
  | cons r rs ih =>
    simp only [registerAll, issueIds, registerEach, ih, List.length_cons, Nat.cast_add,
      Nat.cast_one]
    congr 1
    omega

theorem issueIds_fst_ge (reqs : List Request) (h : Int) :
    ∀ c ∈ issueIds h reqs, h ≤ c.1 := by
  induction reqs generalizing h with
  | nil => simp [issueIds]
  | cons r rs ih =>
    intro c hc
    simp only [issueIds, List.mem_cons] at hc
    rcases hc with rfl | hc
    · exact le_refl _
    · have := ih (h + 1) c hc
      omega

theorem issueIds_pairwise (reqs : List Request) (h : Int) :
    (issueIds h reqs).Pairwise (fun a b => a.1 < b.1) := by
  induction reqs generalizing h with
  | nil => simp [issueIds]
  | cons r rs ih =>
    simp only [issueIds, List.pairwise_cons]
    refine ⟨fun c hc => ?_, ih (h + 1)⟩
    have := issueIds_fst_ge rs (h + 1) c hc
    show h < c.1
    omega

theorem issueIds_fst (reqs : List Request) (h : Int) :
    (issueIds h reqs).map Prod.fst
      = List.map (fun k : Nat => h + (k : Int)) (List.range reqs.length) := by
  induction reqs generalizing h with
  | nil => simp [issueIds]
  | cons r rs ih =>
    simp only [issueIds, List.map_cons, ih, List.length_cons, List.range_succ_eq_map,
      List.map_map]
    refine congrArg₂ _ (by simp) ?_
    apply List.map_congr_left
    intro k _
    simp only [Function.comp, Nat.cast_succ]
    omega

theorem count_succeeded (calls : List (Int × Request))
    (hp : calls.Pairwise (fun a b => a.1 < b.1)) :
    ∀ c ∈ calls,
      ((calls.filter (fun c => c.2.osResult)).map Prod.fst).count c.1
        = if c.2.osResult then 1 else 0 := by
  induction calls with
  | nil => simp
  | cons a t ih =>
    rw [List.pairwise_cons] at hp
    have hfresh : ∀ x ∈ (t.filter (fun c => c.2.osResult)).map Prod.fst, x ≠ a.1 := by
      intro x hx
      simp only [List.mem_map, List.mem_filter] at hx
      obtain ⟨y, ⟨hy, _⟩, rfl⟩ := hx
      exact ne_of_gt (hp.1 y hy)
    have hzero : ((t.filter (fun c => c.2.osResult)).map Prod.fst).count a.1 = 0 :=
      List.count_eq_zero.mpr (fun hmem => hfresh _ hmem rfl)
    intro c hc
    rcases List.mem_cons.mp hc with rfl | hct
    · cases hok : c.2.osResult <;> simp [List.filter_cons, hok, hzero]
    · have hne : a.1 ≠ c.1 := ne_of_lt (hp.1 c hct)
      have := ih hp.2 c hct
      cases hok : a.2.osResult <;>
        simp [List.filter_cons, hok, List.count_cons, hne, this]

/-! ## Properties of the toggle loop -/

theorem MessageLoop_run (ms rest : List MSG) (q : MSG) (w : Window)
    (hms : ∀ m ∈ ms, m.message ≠ WM_QUIT) (hq : q.message = WM_QUIT) :
    MessageLoop w (ms ++ q :: rest) = some (ms.foldl dispatch w) := by
  induction ms generalizing w with
  | nil => simp [MessageLoop, hq]
  | cons m t ih =>
    have hm : m.message ≠ WM_QUIT := hms m (List.mem_cons_self _ _)
    simp only [List.cons_append, MessageLoop, hm, if_false, List.foldl_cons]
    exact ih _ (fun x hx => hms x (List.mem_cons_of_mem _ hx))

/-! ## The claims about the registry and the toggle loop -/

/-- C2: registry teardown.  Take any sequence of requests, registered with the
ids `1, 2, 3, ...` that `wmain` issues (`issueIds 1`) and answered by the
operating system in any way, and run `UnregisterAll` one or more times
afterwards.  Then the live collection is empty, the ids passed to
`::UnregisterHotKey` are exactly the ids whose registration succeeded, each of
them once and no refused id at all, and every `UnregisterAll` after the first
passes nothing to `::UnregisterHotKey`. -/
theorem registry_teardown (reqs : List Request) (k : Nat) :
    (issueIds 1 reqs).map Prod.fst
        = List.map (fun i : Nat => 1 + (i : Int)) (List.range reqs.length)
    ∧ registerAll reqs (HotkeyManager.new, 1)
        = (registerEach (issueIds 1 reqs) HotkeyManager.new, 1 + (reqs.length : Int))
    ∧ (teardowns (k + 1) (registerAll reqs (HotkeyManager.new, 1)).1).1.hotkeyIds = []
    ∧ (teardowns (k + 1) (registerAll reqs (HotkeyManager.new, 1)).1).2
        = ((issueIds 1 reqs).filter (fun c => c.2.osResult)).map Prod.fst
    ∧ (∀ c ∈ issueIds 1 reqs,
        (teardowns (k + 1) (registerAll reqs (HotkeyManager.new, 1)).1).2.count c.1
          = if c.2.osResult then 1 else 0)
    ∧ (teardowns k (registerAll reqs (HotkeyManager.new, 1)).1.UnregisterAll.1).2 = [] := by
  have hlog : (teardowns (k + 1) (registerAll reqs (HotkeyManager.new, 1)).1).2
      = ((issueIds 1 reqs).filter (fun c => c.2.osResult)).map Prod.fst := by
    simp [teardowns_succ, registerAll_eq, registerEach_hotkeyIds, HotkeyManager.new]
  refine ⟨issueIds_fst reqs 1, registerAll_eq reqs _ 1, by simp [teardowns_succ], hlog, ?_,
    by simp [UnregisterAll_eq, teardowns_empty]⟩
  intro c hc
  rw [hlog]
  exact count_succeeded _ (issueIds_pairwise reqs 1) c hc

/-- C1: the toggle step of `MessageLoop`.  A `WM_HOTKEY` message, whatever id
it carries, hides the target window when it is visible and otherwise shows it
and then brings it to the foreground; any other message leaves the window
untouched; the loop applies this step to every message up to `WM_QUIT`.  So
with a window that starts shown, one trigger leaves it hidden and a second
trigger leaves it shown, the last call being `SetForegroundWindow`. -/
theorem MessageLoop_toggle :
    (∀ (calls : List WindowCall) (id : Nat),
        dispatch ⟨true, calls⟩ ⟨WM_HOTKEY, id⟩
          = ⟨false, calls ++ [WindowCall.ShowWindow SW_HIDE]⟩)
    ∧ (∀ (calls : List WindowCall) (id : Nat),
        dispatch ⟨false, calls⟩ ⟨WM_HOTKEY, id⟩
          = ⟨true, calls ++ [WindowCall.ShowWindow SW_SHOW, WindowCall.SetForegroundWindow]⟩)
    ∧ (∀ (w : Window) (msg : MSG), msg.message ≠ WM_HOTKEY → dispatch w msg = w)
    ∧ (∀ (w : Window) (ms rest : List MSG) (q : MSG),
        (∀ m ∈ ms, m.message ≠ WM_QUIT) → q.message = WM_QUIT →
          MessageLoop w (ms ++ q :: rest) = some (ms.foldl dispatch w))
    ∧ (∀ (calls : List WindowCall) (id₁ id₂ : Nat),
        MessageLoop ⟨true, calls⟩ [⟨WM_HOTKEY, id₁⟩, ⟨WM_QUIT, 0⟩]
          = some ⟨false, calls ++ [WindowCall.ShowWindow SW_HIDE]⟩
        ∧ MessageLoop ⟨true, calls⟩ [⟨WM_HOTKEY, id₁⟩, ⟨WM_HOTKEY, id₂⟩, ⟨WM_QUIT, 0⟩]
          = some ⟨true, calls ++ [WindowCall.ShowWindow SW_HIDE,
              WindowCall.ShowWindow SW_SHOW, WindowCall.SetForegroundWindow]⟩) := by
  refine ⟨?_, ?_, ?_, ?_, ?_⟩
  · intro calls id
    simp [dispatch, IsWindowVisible, ShowWindow, SW_HIDE]
  · intro calls id
    simp [dispatch, IsWindowVisible, ShowWindow, SetForegroundWindow, SW_SHOW, SW_HIDE]
  · intro w msg h
    simp [dispatch, h]
  · intro w ms rest q hms hq
    exact MessageLoop_run ms rest q w hms hq
  · intro calls id₁ id₂
    simp [MessageLoop, dispatch, IsWindowVisible, ShowWindow, SetForegroundWindow,
      WM_HOTKEY, WM_QUIT, SW_SHOW, SW_HIDE]

/-! ## Properties of the parser -/

theorem lookup_eq_none_of_not_mem {β : Type} (t : WString) :
    ∀ (tbl : List (WString × β)), t ∉ tbl.map Prod.fst → tbl.lookup t = none := by
  intro tbl
  induction tbl with
  | nil => simp
  | cons e es ih =>
    intro h
    simp only [List.map_cons, List.mem_cons, not_or] at h
    have hne : (t == e.1) = false := by simpa using h.1
    obtain ⟨k, v⟩ := e
    simp only [List.lookup, hne]
    exact ih h.2

theorem GetModifierKey_ne_zero_iff (t : WString) :
    GetModifierKey t ≠ 0 ↔ t ∈ modifierNames := by
  constructor
  · intro h
    by_contra hmem
    apply h
    have : modMap.lookup t = none := lookup_eq_none_of_not_mem t modMap hmem
    simp [GetModifierKey, this]
  · intro h
    simp only [modifierNames, List.mem_cons, List.mem_singleton, List.not_mem_nil, or_false] at h
    rcases h with rfl | rfl | rfl | rfl <;> decide

theorem iswspace_of_printable (H : Host) (c : Char) (h : 33 ≤ c.toNat ∧ c.toNat < 127) :
    iswspace H c = false := by
  have h1 : c.toNat < 128 := by omega
  simp only [iswspace, h1, if_true]
  simp
  omega

theorem modifierNames_printable :
    ∀ m ∈ modifierNames, ∀ c ∈ m, (33 ≤ c.toNat ∧ c.toNat < 127) ∧ c ≠ '+' := by
  decide

theorem removeSpaces_id (H : Host) (s : WString) (h : ∀ c ∈ s, iswspace H c = false) :
    removeSpaces H s = s := by
  simp only [removeSpaces]
  apply List.filter_eq_self.mpr
  intro c hc
  simp [h c hc]

theorem tokenize_single (t : WString) (h : '+' ∉ t) : tokenize t = [t] := by
  induction t with
  | nil => rfl
  | cons c cs ih =>
    simp only [List.mem_cons, not_or] at h
    have hc : c ≠ '+' := fun e => h.1 e.symm
    simp [tokenize, hc, ih h.2]

theorem tokenize_append (t rest : WString) (h : '+' ∉ t) :
    tokenize (t ++ '+' :: rest) = t :: tokenize rest := by
  induction t with
  | nil => simp [tokenize]
  | cons c cs ih =>
    simp only [List.mem_cons, not_or] at h
    have hc : c ≠ '+' := fun e => h.1 e.symm
    simp [tokenize, hc, ih h.2]

theorem tokenize_intercalate (toks : List WString) (hne : toks ≠ [])
    (h : ∀ t ∈ toks, '+' ∉ t) :
    tokenize (List.intercalate ['+'] toks) = toks := by
  induction toks with
  | nil => exact absurd rfl hne
  | cons t ts ih =>
    cases ts with
    | nil => simpa [List.intercalate] using tokenize_single t (h t (List.mem_cons_self _ _))
    | cons t' ts' =>
      have hrest := ih (by simp) (fun x hx => h x (List.mem_cons_of_mem _ hx))
      have hsplit : List.intercalate ['+'] (t :: t' :: ts')
          = t ++ '+' :: List.intercalate ['+'] (t' :: ts') := by
        simp [List.intercalate, List.intersperse]
      rw [hsplit, tokenize_append t _ (h t (List.mem_cons_self _ _)), hrest]

theorem orMods_rightComm :
    RightCommutative (fun (a : Nat) (t : WString) => a ||| GetModifierKey t) :=
  ⟨fun a x y => by
    show a ||| GetModifierKey x ||| GetModifierKey y = a ||| GetModifierKey y ||| GetModifierKey x
    rw [Nat.lor_assoc, Nat.lor_assoc, Nat.lor_comm (GetModifierKey x)]⟩

theorem orMods_perm (fs : Nat) {l₁ l₂ : List WString} (h : l₁.Perm l₂) :
    orMods fs l₁ = orMods fs l₂ :=
  @List.Perm.foldl_eq _ _ _ _ _ orMods_rightComm h fs

theorem orMods_append (fs : Nat) (l₁ l₂ : List WString) :
    orMods fs (l₁ ++ l₂) = orMods (orMods fs l₁) l₂ := by
  simp [orMods]

theorem tokenLoop_mods (H : Host) (ts rest : List WString) (p : Parse)
    (h : ∀ t ∈ ts, GetModifierKey t ≠ 0) :
    tokenLoop H (ts ++ rest) p
      = tokenLoop H rest { p with fsModifiers := orMods p.fsModifiers ts } := by
  induction ts generalizing p with
  | nil => simp [orMods]
  | cons t ts ih =>
    have ht : GetModifierKey t ≠ 0 := h t (List.mem_cons_self _ _)
    rw [List.cons_append]
    simp only [tokenLoop, ht, ne_eq, not_false_eq_true, if_true]
    rw [ih _ (fun x hx => h x (List.mem_cons_of_mem _ hx))]
    simp [orMods]

theorem tokenLoop_first_key (H : Host) (k : WString) (rest : List WString) (p : Parse)
    (hk : GetModifierKey k = 0) (hvk : p.vk = 0) :
    tokenLoop H (k :: rest) p
      = if GetVirtualKey H k = 0 then
          { p with vk := 0, valid := false,
                   out := p.out ++ [Console.invalidKeyOrModifier k] }
        else tokenLoop H rest { p with vk := GetVirtualKey H k } := by
  simp only [tokenLoop, hk, hvk, ne_eq, not_true_eq_false, if_false, if_true]
  split <;> simp_all

theorem tokenLoop_second_key (H : Host) (k : WString) (rest : List WString) (p : Parse)
    (hk : GetModifierKey k = 0) (hvk : p.vk ≠ 0) :
    tokenLoop H (k :: rest) p
      = { p with valid := false, out := p.out ++ [Console.multipleKeysSpecified k] } := by
  simp [tokenLoop, hk, hvk]

theorem mem_intercalate_plus (toks : List WString) :
    ∀ c ∈ List.intercalate ['+'] toks, c = '+' ∨ ∃ t ∈ toks, c ∈ t := by
  induction toks with
  | nil => simp [List.intercalate]
  | cons t ts ih =>
    cases ts with
    | nil =>
      intro c hc
      right
      exact ⟨t, List.mem_cons_self _ _, by simpa [List.intercalate] using hc⟩
    | cons t' ts' =>
      have hsplit : List.intercalate ['+'] (t :: t' :: ts')
          = t ++ '+' :: List.intercalate ['+'] (t' :: ts') := by
        simp [List.intercalate, List.intersperse]
      intro c hc
      rw [hsplit, List.mem_append, List.mem_cons] at hc
      rcases hc with hc | hc | hc
      · exact Or.inr ⟨t, List.mem_cons_self _ _, hc⟩
      · exact Or.inl hc
      · rcases ih c hc with h | ⟨x, hx, hcx⟩
        · exact Or.inl h
        · exact Or.inr ⟨x, List.mem_cons_of_mem _ hx, hcx⟩

theorem removeSpaces_intercalate (H : Host) (toks : List WString)
    (h : ∀ t ∈ toks, ∀ c ∈ t, iswspace H c = false) :
    removeSpaces H (List.intercalate ['+'] toks) = List.intercalate ['+'] toks := by
  apply removeSpaces_id
  intro c hc
  rcases mem_intercalate_plus toks c hc with rfl | ⟨t, ht, hct⟩
  · exact iswspace_of_printable H _ (by decide)
  · exact h t ht c hct

theorem modifier_no_space (H : Host) (m : WString) (hm : m ∈ modifierNames) :
    ∀ c ∈ m, iswspace H c = false :=
  fun c hc => iswspace_of_printable H c (modifierNames_printable m hm c hc).1

theorem modifier_no_plus (m : WString) (hm : m ∈ modifierNames) : '+' ∉ m :=
  fun h => (modifierNames_printable m hm '+' h).2 rfl

theorem GetVirtualKey_modifier (H : Host) (m : WString) (hm : m ∈ modifierNames) :
    GetVirtualKey H m = 0 := by
  simp only [modifierNames, List.mem_cons, List.mem_singleton, List.not_mem_nil, or_false] at hm
  rcases hm with rfl | rfl | rfl | rfl <;> rfl

theorem GetVirtualKey_done (H : Host) : GetVirtualKey H "done".toList = 0 := rfl

theorem tokenLoop_all_mods (H : Host) (ms : List WString) (p : Parse)
    (h : ∀ m ∈ ms, GetModifierKey m ≠ 0) :
    tokenLoop H ms p = { p with fsModifiers := orMods p.fsModifiers ms } := by
  have := tokenLoop_mods H ms [] p h
  simpa [tokenLoop] using this

theorem tokenLoop_one_key (H : Host) (pre post : List WString) (K : WString) (p : Parse)
    (hpre : ∀ m ∈ pre, GetModifierKey m ≠ 0) (hpost : ∀ m ∈ post, GetModifierKey m ≠ 0)
    (hK : GetModifierKey K = 0) (hvk : p.vk = 0) (hres : GetVirtualKey H K ≠ 0) :
    tokenLoop H (pre ++ K :: post) p
      = { p with fsModifiers := orMods p.fsModifiers (pre ++ post),
                 vk := GetVirtualKey H K } := by
  rw [tokenLoop_mods H pre _ p hpre,
    tokenLoop_first_key H K post { p with fsModifiers := orMods p.fsModifiers pre } hK hvk,
    if_neg hres, tokenLoop_all_mods H post _ hpost]
  simp [orMods_append]

theorem tokenLoop_two_keys (H : Host) (pre mid post : List WString) (k₁ k₂ : WString)
    (p : Parse)
    (hpre : ∀ m ∈ pre, GetModifierKey m ≠ 0) (hmid : ∀ m ∈ mid, GetModifierKey m ≠ 0)
    (h₁ : GetModifierKey k₁ = 0) (h₂ : GetModifierKey k₂ = 0) (hvk : p.vk = 0) :
    (tokenLoop H (pre ++ k₁ :: (mid ++ k₂ :: post)) p).valid = false
    ∧ (tokenLoop H (pre ++ k₁ :: (mid ++ k₂ :: post)) p).out
        = p.out ++ [if GetVirtualKey H k₁ = 0 then Console.invalidKeyOrModifier k₁
                    else Console.multipleKeysSpecified k₂] := by
  rw [tokenLoop_mods H pre _ p hpre,
    tokenLoop_first_key H k₁ _ { p with fsModifiers := orMods p.fsModifiers pre } h₁ hvk]
  by_cases hres : GetVirtualKey H k₁ = 0
  · simp [hres]
  · rw [if_neg hres, tokenLoop_mods H mid _ _ hmid,
      tokenLoop_second_key H k₂ post _ h₂ (by simpa using hres)]
    simp [hres]

theorem two_keys_split (toks : List WString) (k₁ k₂ : WString) (more : List WString)
    (h : toks.filter (fun t => GetModifierKey t == 0) = k₁ :: k₂ :: more) :
    ∃ pre mid post, toks = pre ++ k₁ :: (mid ++ k₂ :: post)
      ∧ (∀ m ∈ pre, GetModifierKey m ≠ 0) ∧ (∀ m ∈ mid, GetModifierKey m ≠ 0)
      ∧ GetModifierKey k₁ = 0 ∧ GetModifierKey k₂ = 0 := by
  obtain ⟨pre, l₂, rfl, hpre, hk₁, hrest⟩ := List.filter_eq_cons_iff.mp h
  obtain ⟨mid, post, rfl, hmid, hk₂, _⟩ := List.filter_eq_cons_iff.mp hrest
  refine ⟨pre, mid, post, rfl, ?_, ?_, by simpa using hk₁, by simpa using hk₂⟩
  · intro m hm
    simpa using hpre m hm
  · intro m hm
    simpa using hmid m hm

theorem removeSpaces_done (H : Host) : removeSpaces H "done".toList = "done".toList := by
  apply removeSpaces_id
  intro c hc
  have : ∀ c ∈ "done".toList, 33 ≤ c.toNat ∧ c.toNat < 127 := by decide
  exact iswspace_of_printable H c (this c hc)

theorem parseCombination_rejected (H : Host) (st : InputState) (input : WString)
    (osResult : Bool)
    (h : (parseCombination H input).valid = false ∨ (parseCombination H input).vk = 0) :
    processLine H st (input, osResult)
      = { st with out := st.out ++ (parseCombination H input).out
                    ++ [Console.invalidKeyCombination] } := by
  have hc : (!(parseCombination H input).valid || (parseCombination H input).vk == 0) = true := by
    rcases h with h | h <;> simp [h]
  simp only [processLine, hc, if_true]

theorem parseCombination_accepted (H : Host) (st : InputState) (input : WString)
    (osResult : Bool)
    (hv : (parseCombination H input).valid = true) (hk : (parseCombination H input).vk ≠ 0) :
    processLine H st (input, osResult)
      = { hotkeyManager :=
            (st.hotkeyManager.RegisterInt osResult st.hotkeyId
              (parseCombination H input).fsModifiers (parseCombination H input).vk).2,
          hotkeyId := st.hotkeyId + 1,
          registerCalls := st.registerCalls ++
            [⟨st.hotkeyId, (parseCombination H input).fsModifiers,
              (parseCombination H input).vk, osResult⟩],
          out := st.out ++ (parseCombination H input).out ++
            [if osResult then Console.hotkeyRegistered else Console.failedToRegister] } := by
  have hc : (!(parseCombination H input).valid || (parseCombination H input).vk == 0) = false := by
    simp [hv, hk]
  cases osResult <;> simp [processLine, hc, RegisterInt_eq]

/-! ## The claims about the parser -/

/-- C6: a combination made only of modifier names.  For every non-empty list of
modifier names joined by `+`, the token loop runs to its end with `vk` equal to
`0` (and `valid` still `true`), the line is not the `done` sentinel, and the
iteration only reports the combination as invalid: `Register` is not called,
the manager is untouched and the counter `hotkeyId` does not advance. -/
theorem modifiers_only_rejected (H : Host) (ms : List WString) (st : InputState)
    (osResult : Bool) (hne : ms ≠ []) (hms : ∀ m ∈ ms, m ∈ modifierNames) :
    parseCombination H (List.intercalate ['+'] ms) = ⟨orMods 0 ms, 0, true, []⟩
    ∧ List.intercalate ['+'] ms ≠ "done".toList
    ∧ processLine H st (List.intercalate ['+'] ms, osResult)
        = { st with out := st.out ++ [Console.invalidKeyCombination] } := by
  have htok : tokenize (List.intercalate ['+'] ms) = ms :=
    tokenize_intercalate ms hne (fun t ht => modifier_no_plus t (hms t ht))
  have hparse : parseCombination H (List.intercalate ['+'] ms) = ⟨orMods 0 ms, 0, true, []⟩ := by
    unfold parseCombination
    rw [removeSpaces_intercalate H ms (fun t ht => modifier_no_space H t (hms t ht)), htok,
      tokenLoop_all_mods H ms _ (fun m hm => (GetModifierKey_ne_zero_iff m).mpr (hms m hm))]
  refine ⟨hparse, ?_, ?_⟩
  · intro hdone
    rw [hdone] at htok
    have hmem : "done".toList ∈ ms := by
      rw [← htok]
      decide
    exact absurd (hms _ hmem) (by decide)
  · rw [parseCombination_rejected H st _ osResult (Or.inr (by rw [hparse])), hparse]
    simp

/-- C6 at a concrete input: the line `Ctrl+Alt` on the US layout. -/
theorem modifiers_only_rejected_witness :
    (["Ctrl".toList, "Alt".toList] ≠ [])
    ∧ (∀ m ∈ ["Ctrl".toList, "Alt".toList], m ∈ modifierNames)
    ∧ parseCombination usHost "Ctrl+Alt".toList = ⟨3, 0, true, []⟩
    ∧ processLine usHost InputState.init ("Ctrl+Alt".toList, true)
        = { InputState.init with out := [Console.invalidKeyCombination] } :=
  ⟨by decide, by decide,
    (modifiers_only_rejected usHost ["Ctrl".toList, "Alt".toList] InputState.init true
      (by decide) (by decide)).1,
    (modifiers_only_rejected usHost ["Ctrl".toList, "Alt".toList] InputState.init true
      (by decide) (by decide)).2.2⟩

/-- C5, as the code has it: a combination with two or more non-modifier
tokens.  Whenever the tokens of a line that are not modifier names are
`k₁, k₂, ...` (at least two), the combination is rejected and the iteration
makes no `Register` call and leaves manager and counter alone.  The diagnostic
is "Multiple keys specified" for `k₂` when `k₁` resolves to a key code, and
"Invalid key or modifier" for `k₁` when it does not. -/
theorem two_keys_rejected (H : Host) (input k₁ k₂ : WString) (more : List WString)
    (st : InputState) (osResult : Bool)
    (h : (tokenize (removeSpaces H input)).filter (fun t => GetModifierKey t == 0)
          = k₁ :: k₂ :: more) :
    (parseCombination H input).valid = false
    ∧ (parseCombination H input).out
        = [if GetVirtualKey H k₁ = 0 then Console.invalidKeyOrModifier k₁
           else Console.multipleKeysSpecified k₂]
    ∧ input ≠ "done".toList
    ∧ processLine H st (input, osResult)
        = { st with out := st.out ++
              [if GetVirtualKey H k₁ = 0 then Console.invalidKeyOrModifier k₁
               else Console.multipleKeysSpecified k₂,
               Console.invalidKeyCombination] } := by
  obtain ⟨pre, mid, post, htoks, hpre, hmid, h₁, h₂⟩ := two_keys_split _ k₁ k₂ more h
  have hloop := tokenLoop_two_keys H pre mid post k₁ k₂
    { fsModifiers := 0, vk := 0, valid := true, out := [] } hpre hmid h₁ h₂ rfl
  have hvalid : (parseCombination H input).valid = false := by
    unfold parseCombination
    rw [htoks]
    exact hloop.1
  have hout : (parseCombination H input).out
      = [if GetVirtualKey H k₁ = 0 then Console.invalidKeyOrModifier k₁
         else Console.multipleKeysSpecified k₂] := by
    unfold parseCombination
    rw [htoks]
    simpa using hloop.2
  refine ⟨hvalid, hout, ?_, ?_⟩
  · intro hdone
    have hone : (tokenize "done".toList).filter (fun t => GetModifierKey t == 0)
        = ["done".toList] := by decide
    rw [hdone, removeSpaces_done, hone] at h
    simp at h
  · rw [parseCombination_rejected H st _ osResult (Or.inl hvalid), hout]
    simp

/-- C5 at a concrete input: the line `Ctrl+a+Alt+b` on the US layout. -/
theorem two_keys_rejected_witness :
    (tokenize (removeSpaces usHost "Ctrl+a+Alt+b".toList)).filter
        (fun t => GetModifierKey t == 0) = ["a".toList, "b".toList]
    ∧ (parseCombination usHost "Ctrl+a+Alt+b".toList).out
        = [Console.multipleKeysSpecified "b".toList]
    ∧ processLine usHost InputState.init ("Ctrl+a+Alt+b".toList, true)
        = { InputState.init with
              out := [Console.multipleKeysSpecified "b".toList,
                      Console.invalidKeyCombination] } :=
  ⟨by decide,
    (two_keys_rejected usHost "Ctrl+a+Alt+b".toList "a".toList "b".toList []
      InputState.init true (by decide)).2.1,
    (two_keys_rejected usHost "Ctrl+a+Alt+b".toList "a".toList "b".toList []
      InputState.init true (by decide)).2.2.2⟩

/-- C5 as stated fails: `xx+yy` has two non-modifier tokens, yet the parse
stops at `xx` with "Invalid key or modifier" and never reaches the
"Multiple keys specified" branch. -/
theorem two_keys_counterexample :
    (tokenize (removeSpaces usHost "xx+yy".toList)).filter
        (fun t => GetModifierKey t == 0) = ["xx".toList, "yy".toList]
    ∧ parseCombination usHost "xx+yy".toList
        = ⟨0, 0, false, [Console.invalidKeyOrModifier "xx".toList]⟩ := by
  decide

/-- C3, as the code has it: a combination of modifier names and one key.  Let
`M` be modifier names and `K` a key name that `GetVirtualKey` resolves to a
non-zero code, with no `+` and no white-space character in `K`.  For every
ordering `toks` of `K` together with `M`, the line `toks` joined by `+` is
parsed with `valid` true, `fsModifiers` the bitwise OR of the bits of `M` and
`vk` equal to `GetVirtualKey K`; the line is not the `done` sentinel, and the
iteration calls `Register` with the current `hotkeyId`, that mask and that key
code. -/
theorem combination_accepted (H : Host) (M : List WString) (K : WString)
    (toks : List WString) (st : InputState) (osResult : Bool)
    (hM : ∀ m ∈ M, m ∈ modifierNames)
    (hK : GetVirtualKey H K ≠ 0)
    (hplus : '+' ∉ K)
    (hspace : ∀ c ∈ K, iswspace H c = false)
    (hperm : toks.Perm (K :: M)) :
    parseCombination H (List.intercalate ['+'] toks)
        = ⟨orMods 0 M, GetVirtualKey H K, true, []⟩
    ∧ List.intercalate ['+'] toks ≠ "done".toList
    ∧ processLine H st (List.intercalate ['+'] toks, osResult)
        = { hotkeyManager :=
              (st.hotkeyManager.RegisterInt osResult st.hotkeyId (orMods 0 M)
                (GetVirtualKey H K)).2,
            hotkeyId := st.hotkeyId + 1,
            registerCalls := st.registerCalls ++
              [⟨st.hotkeyId, orMods 0 M, GetVirtualKey H K, osResult⟩],
            out := st.out ++
              [if osResult then Console.hotkeyRegistered else Console.failedToRegister] } := by
  have hKmem : K ∈ toks := hperm.mem_iff.mpr (List.mem_cons_self _ _)
  obtain ⟨pre, post, rfl⟩ := List.append_of_mem hKmem
  have hrest : (pre ++ post).Perm M := (List.perm_middle.symm.trans hperm).cons_inv
  have hmods : ∀ m ∈ pre ++ post, m ∈ modifierNames :=
    fun m hm => hM m (hrest.mem_iff.mp hm)
  have hKnot : K ∉ modifierNames := fun hmem => hK (GetVirtualKey_modifier H K hmem)
  have hKmod : GetModifierKey K = 0 := by
    by_contra hne
    exact hKnot ((GetModifierKey_ne_zero_iff K).mp hne)
  have hall : ∀ t ∈ pre ++ K :: post, ('+' ∉ t) ∧ ∀ c ∈ t, iswspace H c = false := by
    intro t ht
    rcases List.mem_append.mp ht with h | h
    · have := hmods t (List.mem_append_left _ h)
      exact ⟨modifier_no_plus t this, modifier_no_space H t this⟩
    · rcases List.mem_cons.mp h with rfl | h
      · exact ⟨hplus, hspace⟩
      · have := hmods t (List.mem_append_right _ h)
        exact ⟨modifier_no_plus t this, modifier_no_space H t this⟩
  have htok : tokenize (List.intercalate ['+'] (pre ++ K :: post)) = pre ++ K :: post :=
    tokenize_intercalate _ (by simp) (fun t ht => (hall t ht).1)
  have hparse : parseCombination H (List.intercalate ['+'] (pre ++ K :: post))
      = ⟨orMods 0 M, GetVirtualKey H K, true, []⟩ := by
    unfold parseCombination
    rw [removeSpaces_intercalate H _ (fun t ht => (hall t ht).2), htok,
      tokenLoop_one_key H pre post K _
        (fun m hm => (GetModifierKey_ne_zero_iff m).mpr (hmods m (List.mem_append_left _ hm)))
        (fun m hm => (GetModifierKey_ne_zero_iff m).mpr (hmods m (List.mem_append_right _ hm)))
        hKmod rfl hK]
    simp [orMods_perm 0 hrest]
  refine ⟨hparse, ?_, ?_⟩
  · intro hdone
    rw [hdone] at htok
    have hone : tokenize "done".toList = ["done".toList] := by decide
    have hmem : K ∈ ["done".toList] := by
      rw [← hone, htok]
      exact hKmem
    rw [List.mem_singleton] at hmem
    exact hK (hmem ▸ GetVirtualKey_done H)
  · rw [parseCombination_accepted H st _ osResult (by rw [hparse]) (by rw [hparse]; exact hK),
      hparse]
    simp

/-- C3 at a concrete input: the line `Shift+M+Ctrl` on the US layout. -/
theorem combination_accepted_witness :
    (∀ m ∈ ["Ctrl".toList, "Shift".toList], m ∈ modifierNames)
    ∧ GetVirtualKey usHost "M".toList ≠ 0
    ∧ '+' ∉ "M".toList
    ∧ (∀ c ∈ "M".toList, iswspace usHost c = false)
    ∧ ["Shift".toList, "M".toList, "Ctrl".toList].Perm
        ("M".toList :: ["Ctrl".toList, "Shift".toList])
    ∧ parseCombination usHost "Shift+M+Ctrl".toList = ⟨6, 0x4D, true, []⟩ :=
  ⟨by decide, by decide, by decide, by decide, by decide,
    (combination_accepted usHost ["Ctrl".toList, "Shift".toList] "M".toList
      ["Shift".toList, "M".toList, "Ctrl".toList] InputState.init true
      (by decide) (by decide) (by decide) (by decide) (by decide)).1⟩

/-- C3 as stated fails: `+` and the space character are key names that
`GetVirtualKey` resolves to non-zero codes on the US layout, yet joined with
`Ctrl` they are rejected, because `+` is the separator and white space is
removed before the line is cut into tokens. -/
theorem combination_counterexample :
    GetVirtualKey usHost "+".toList = 0xBB
    ∧ (parseCombination usHost (List.intercalate ['+'] ["Ctrl".toList, "+".toList])).valid = false
    ∧ GetVirtualKey usHost " ".toList = 0x20
    ∧ (parseCombination usHost (List.intercalate ['+'] ["Ctrl".toList, " ".toList])).valid = false := by
  decide

/-! ## Properties of the key resolver -/

theorem isDigit_bounds (c : Char) (h : c.isDigit = true) : 48 ≤ c.toNat ∧ c.toNat ≤ 57 := by
  simp only [Char.isDigit, Bool.and_eq_true, decide_eq_true_eq] at h
  have h1 : (48 : UInt32) ≤ c.val := h.1
  have h2 : c.val ≤ (57 : UInt32) := h.2
  simp only [Char.toNat]
  rw [UInt32.le_def] at h1 h2
  exact ⟨h1, h2⟩

theorem digitChar_spec : ∀ k < 10,
    (Nat.digitChar k).isDigit = true ∧ digitValue (Nat.digitChar k) = k := by
  decide

theorem toDigitsCore_spec (fuel : Nat) : ∀ (n : Nat) (ds : List Char), n < fuel →
    ∃ l, Nat.toDigitsCore 10 fuel n ds = l ++ ds ∧ l ≠ [] ∧ (∀ c ∈ l, c.isDigit = true)
      ∧ l.foldl (fun a c => 10 * a + digitValue c) 0 = n := by
  induction fuel with
  | zero => intro n ds h; omega
  | succ fuel ih =>
    intro n ds hn
    have hd := digitChar_spec (n % 10) (Nat.mod_lt _ (by decide))
    simp only [Nat.toDigitsCore]
    by_cases h0 : n / 10 = 0
    · simp only [h0, if_true]
      refine ⟨[Nat.digitChar (n % 10)], rfl, by simp, ?_, ?_⟩
      · intro c hc
        rw [List.mem_singleton] at hc
        rw [hc]
        exact hd.1
      · simp only [List.foldl_cons, List.foldl_nil, hd.2]
        omega
    · simp only [h0, if_false]
      obtain ⟨l, hl, _, hdig, hval⟩ := ih (n / 10) (Nat.digitChar (n % 10) :: ds) (by omega)
      refine ⟨l ++ [Nat.digitChar (n % 10)], by simp [hl], by simp, ?_, ?_⟩
      · intro c hc
        rcases List.mem_append.mp hc with h | h
        · exact hdig c h
        · rw [List.mem_singleton] at h
          rw [h]
          exact hd.1
      · simp only [List.foldl_append, List.foldl_cons, List.foldl_nil, hval, hd.2]
        omega

theorem toDigits_spec (n : Nat) :
    Nat.toDigits 10 n ≠ [] ∧ (∀ c ∈ Nat.toDigits 10 n, c.isDigit = true)
      ∧ (Nat.toDigits 10 n).foldl (fun a c => 10 * a + digitValue c) 0 = n := by
  obtain ⟨l, hl, hne, hdig, hval⟩ := toDigitsCore_spec (n + 1) n [] (Nat.lt_succ_self n)
  rw [List.append_nil] at hl
  simp only [Nat.toDigits, hl]
  exact ⟨hne, hdig, hval⟩


theorem stoi_of_head (H : Host) (c : Char) (rest : WString)
    (hsp : iswspace H c = false) (hminus : c ≠ '-') (hplus : c ≠ '+') :
    stoi H (c :: rest)
      = if ((c :: rest).takeWhile Char.isDigit).isEmpty then none
        else
          if INT_MIN ≤ ((((c :: rest).takeWhile Char.isDigit).foldl
                (fun a c => 10 * a + digitValue c) 0 : Nat) : Int)
              ∧ ((((c :: rest).takeWhile Char.isDigit).foldl
                (fun a c => 10 * a + digitValue c) 0 : Nat) : Int) ≤ INT_MAX
          then some ((((c :: rest).takeWhile Char.isDigit).foldl
                (fun a c => 10 * a + digitValue c) 0 : Nat) : Int)
          else none := by
  have hdrop : (c :: rest).dropWhile (iswspace H) = c :: rest := by
    simp [List.dropWhile, hsp]
  have hsign : readSign (c :: rest) = (false, c :: rest) := by
    unfold readSign
    split
    · rename_i r heq
      exact absurd (List.cons.inj heq).1 hminus
    · rename_i r heq
      exact absurd (List.cons.inj heq).1 hplus
    · rfl
  simp only [stoi, hdrop, hsign]
  simp

theorem stoi_digits (H : Host) (l : WString) (hne : l ≠ [])
    (hd : ∀ c ∈ l, c.isDigit = true) :
    stoi H l
      = if ((l.foldl (fun a c => 10 * a + digitValue c) 0 : Nat) : Int) ≤ INT_MAX
        then some ((l.foldl (fun a c => 10 * a + digitValue c) 0 : Nat) : Int) else none := by
  cases l with
  | nil => exact absurd rfl hne
  | cons c rest =>
    have hc := isDigit_bounds c (hd c (List.mem_cons_self _ _))
    have hsp : iswspace H c = false := iswspace_of_printable H c (by omega)
    have hminus : c ≠ '-' := by
      intro h
      rw [h] at hc
      revert hc
      decide
    have hplus : c ≠ '+' := by
      intro h
      rw [h] at hc
      revert hc
      decide
    have htake : (c :: rest).takeWhile Char.isDigit = c :: rest :=
      List.takeWhile_eq_self_iff.mpr hd
    rw [stoi_of_head H c rest hsp hminus hplus, htake]
    have hmin : INT_MIN ≤ (((c :: rest).foldl (fun a c => 10 * a + digitValue c) 0 : Nat) : Int) := by
      have : (0 : Int) ≤ (((c :: rest).foldl (fun a c => 10 * a + digitValue c) 0 : Nat) : Int) :=
        Int.ofNat_nonneg _
      simp only [INT_MIN]
      omega
    simp only [hmin, true_and, List.isEmpty_cons, Bool.false_eq_true, if_false]

theorem stoi_toDigits (H : Host) (n : Nat) :
    stoi H (Nat.toDigits 10 n) = if (n : Int) ≤ INT_MAX then some (n : Int) else none := by
  obtain ⟨hne, hdig, hval⟩ := toDigits_spec n
  rw [stoi_digits H _ hne hdig, hval]

theorem dropWhile_spaces (H : Host) (ws r : WString)
    (hws : ∀ x ∈ ws, iswspace H x = true) :
    (ws ++ r).dropWhile (iswspace H) = r.dropWhile (iswspace H) := by
  induction ws with
  | nil => rfl
  | cons w t ih =>
    have hw := hws w (List.mem_cons_self _ _)
    simp only [List.cons_append, List.dropWhile_cons, hw, if_true]
    exact ih (fun x hx => hws x (List.mem_cons_of_mem _ hx))

theorem stoi_no_digits (H : Host) (ws sg tail : WString)
    (hws : ∀ x ∈ ws, iswspace H x = true)
    (hsg : sg = [] ∨ sg = ['+'] ∨ sg = ['-'])
    (htail : ∀ c ∈ tail.head?, c.isDigit = false
      ∧ (sg = [] → iswspace H c = false ∧ c ≠ '+' ∧ c ≠ '-')) :
    stoi H (ws ++ sg ++ tail) = none := by
  have hnodigit : (tail.takeWhile Char.isDigit).isEmpty = true := by
    cases tail with
    | nil => rfl
    | cons c rest =>
      have := (htail c (by simp)).1
      simp [List.takeWhile, this]
  have hplus : iswspace H '+' = false := iswspace_of_printable H _ (by decide)
  have hminus : iswspace H '-' = false := iswspace_of_printable H _ (by decide)
  unfold stoi
  rw [List.append_assoc, dropWhile_spaces H ws _ hws]
  rcases hsg with rfl | rfl | rfl
  · cases tail with
    | nil => rfl
    | cons c rest =>
      obtain ⟨hd, hrest⟩ := htail c (by simp)
      obtain ⟨hsp, hp, hm⟩ := hrest rfl
      have hsign : readSign (c :: rest) = (false, c :: rest) := by
        unfold readSign
        split
        · rename_i r heq
          exact absurd (List.cons.inj heq).1 hm
        · rename_i r heq
          exact absurd (List.cons.inj heq).1 hp
        · rfl
      simp only [List.nil_append, List.dropWhile_cons, hsp, Bool.false_eq_true, if_false, hsign,
        hnodigit, if_true]
  · simp only [List.singleton_append, List.dropWhile_cons, hplus, Bool.false_eq_true, if_false,
      readSign, hnodigit, if_true]
  · simp only [List.singleton_append, List.dropWhile_cons, hminus, Bool.false_eq_true, if_false,
      readSign, hnodigit, if_true]

theorem keyMap_no_F : ∀ k ∈ keyMap.map Prod.fst, k.head? ≠ some 'F' := by
  decide

theorem keyMap_lookup_F (rest : WString) : keyMap.lookup ('F' :: rest) = none :=
  lookup_eq_none_of_not_mem _ keyMap (fun h => keyMap_no_F _ h rfl)

theorem GetVirtualKey_F (H : Host) (c : Char) (rest : WString) :
    GetVirtualKey H ('F' :: c :: rest)
      = match stoi H (c :: rest) with
        | some fKeyNum =>
          if 1 ≤ fKeyNum ∧ fKeyNum ≤ 24 then (VK_F1 + fKeyNum - 1).toNat else 0
        | none => 0 := by
  simp [GetVirtualKey, keyMap_lookup_F]

theorem GetVirtualKey_F_digits (H : Host) (n : Nat) :
    GetVirtualKey H ('F' :: Nat.toDigits 10 n)
      = if 1 ≤ n ∧ n ≤ 24 then VK_F1 + n - 1 else 0 := by
  obtain ⟨hne, _, _⟩ := toDigits_spec n
  obtain ⟨c, rest, hcr⟩ := List.exists_cons_of_ne_nil hne
  rw [hcr, GetVirtualKey_F, ← hcr, stoi_toDigits]
  by_cases hmax : (n : Int) ≤ INT_MAX
  · simp only [hmax, if_true]
    by_cases hr : 1 ≤ n ∧ n ≤ 24
    · have : (1 : Int) ≤ n ∧ (n : Int) ≤ 24 := by omega
      have hcast : ((VK_F1 : Nat) : Int) + (n : Int) - 1 = ((VK_F1 + n - 1 : Nat) : Int) := by
        simp only [VK_F1]
        omega
      simp only [hr, this, and_self, if_true, hcast, Int.toNat_ofNat]
    · have : ¬ ((1 : Int) ≤ n ∧ (n : Int) ≤ 24) := by omega
      simp only [hr, this, if_false]
  · have hr : ¬ (1 ≤ n ∧ n ≤ 24) := by
      simp only [INT_MAX] at hmax
      omega
    simp only [hmax, hr, if_false]

/-! ## The claims about function keys -/

/-- C8: function keys.  For every `n` with `1 ≤ n ≤ 24`, `GetVirtualKey` of
`F` followed by the decimal digits of `n` is `VK_F1 + n - 1`; these 24 codes are
non-zero, consecutive and pairwise distinct.  For every other `n` (`F0`, `F25`
and beyond, however large) the result is `0`. -/
theorem function_keys (H : Host) :
    (∀ n, 1 ≤ n → n ≤ 24 → GetVirtualKey H ('F' :: Nat.toDigits 10 n) = VK_F1 + n - 1)
    ∧ (∀ n, 1 ≤ n → n ≤ 24 → GetVirtualKey H ('F' :: Nat.toDigits 10 n) ≠ 0)
    ∧ (∀ n, 1 ≤ n → n < 24 →
        GetVirtualKey H ('F' :: Nat.toDigits 10 (n + 1))
          = GetVirtualKey H ('F' :: Nat.toDigits 10 n) + 1)
    ∧ (∀ m n, 1 ≤ m → m ≤ 24 → 1 ≤ n → n ≤ 24 →
        GetVirtualKey H ('F' :: Nat.toDigits 10 m) = GetVirtualKey H ('F' :: Nat.toDigits 10 n) →
        m = n)
    ∧ (∀ n, ¬ (1 ≤ n ∧ n ≤ 24) → GetVirtualKey H ('F' :: Nat.toDigits 10 n) = 0)
    ∧ GetVirtualKey H "F1".toList = VK_F1
    ∧ GetVirtualKey H "F24".toList = VK_F1 + 23
    ∧ GetVirtualKey H "F0".toList = 0
    ∧ GetVirtualKey H "F25".toList = 0 := by
  have key : ∀ n, 1 ≤ n → n ≤ 24 →
      GetVirtualKey H ('F' :: Nat.toDigits 10 n) = VK_F1 + n - 1 := by
    intro n h1 h2
    rw [GetVirtualKey_F_digits, if_pos ⟨h1, h2⟩]
  have zero : ∀ n, ¬ (1 ≤ n ∧ n ≤ 24) → GetVirtualKey H ('F' :: Nat.toDigits 10 n) = 0 := by
    intro n h
    rw [GetVirtualKey_F_digits, if_neg h]
  refine ⟨key, ?_, ?_, ?_, zero, ?_, ?_, ?_, ?_⟩
  · intro n h1 h2
    rw [key n h1 h2]
    simp only [VK_F1]
    omega
  · intro n h1 h2
    rw [key n h1 (by omega), key (n + 1) (by omega) (by omega)]
    simp only [VK_F1]
    omega
  · intro m n hm1 hm2 hn1 hn2 h
    rw [key m hm1 hm2, key n hn1 hn2] at h
    simp only [VK_F1] at h
    omega
  · exact key 1 (by decide) (by decide)
  · exact key 24 (by decide) (by decide)
  · exact zero 0 (by decide)
  · exact zero 25 (by decide)

theorem stoi_reads (H : Host) (s : WString) (v₀ : Int) (e : stoi H s = some v₀)
    (hv : v₀ < 1 ∨ 24 < v₀) : ∀ v, stoi H s = some v → v < 1 ∨ 24 < v := by
  intro v h
  rw [e] at h
  cases h
  exact hv

theorem stoi_throws (H : Host) (s : WString) (e : stoi H s = none) :
    ∀ v, stoi H s = some v → v < 1 ∨ 24 < v := by
  intro v h
  rw [e] at h
  cases h

/-- C9, as the code has it: names that begin with `F`.  Let the text `s` after
the `F` be non-empty and such that `std::stoi` does not read a number from `1`
to `24` at its start: it throws, or it reads a number outside that range.
Then `GetVirtualKey` returns `0`; this covers `Fx`, `F-1`, `F25x`, `F0x10` and
`F100abc`.  The bare name `F` is a single character and is resolved through
`VkKeyScan` like any letter: the result is the low byte of `VkKeyScan('F')`
when `VkKeyScan` does not return `-1`, and `0` when it returns `-1`. -/
theorem function_key_suffix (H : Host) (s : WString) (hne : s ≠ [])
    (hnum : ∀ v, stoi H s = some v → v < 1 ∨ 24 < v) :
    GetVirtualKey H ('F' :: s) = 0
    ∧ GetVirtualKey H ['F']
        = if H.VkKeyScan 'F' = -1 then 0 else (H.VkKeyScan 'F' % 256).toNat := by
  constructor
  · obtain ⟨c, rest, hcr⟩ := List.exists_cons_of_ne_nil hne
    rw [hcr, GetVirtualKey_F, ← hcr]
    cases hst : stoi H s with
    | none => rfl
    | some v =>
      have hout : ¬ (1 ≤ v ∧ v ≤ 24) := by
        have := hnum v hst
        omega
      simp only [hout, if_false]
  · have hup : towupper H 'F' = 'F' := rfl
    have hlook : keyMap.lookup ['F'] = none := keyMap_lookup_F []
    by_cases hv : H.VkKeyScan 'F' = -1
    · simp [GetVirtualKey, hup, hv, hlook]
    · simp [GetVirtualKey, hup, hv]

/-- C9 at concrete inputs on the US layout: `F25x`, where `std::stoi` reads
`25`, and likewise `F0x10`, `F-1`, `F100abc`, and `Fx`, `F -x`, where it
throws. -/
theorem function_key_suffix_witness :
    ("25x".toList ≠ [])
    ∧ (∀ v, stoi usHost "25x".toList = some v → v < 1 ∨ 24 < v)
    ∧ GetVirtualKey usHost "F25x".toList = 0
    ∧ GetVirtualKey usHost "F0x10".toList = 0
    ∧ GetVirtualKey usHost "F-1".toList = 0
    ∧ GetVirtualKey usHost "F100abc".toList = 0
    ∧ GetVirtualKey usHost "Fx".toList = 0
    ∧ GetVirtualKey usHost "F -x".toList = 0 :=
  ⟨by decide,
    stoi_reads usHost "25x".toList 25 (by decide) (by decide),
    (function_key_suffix usHost "25x".toList (by decide)
      (stoi_reads usHost "25x".toList 25 (by decide) (by decide))).1,
    (function_key_suffix usHost "0x10".toList (by decide)
      (stoi_reads usHost "0x10".toList 0 (by decide) (by decide))).1,
    (function_key_suffix usHost "-1".toList (by decide)
      (stoi_reads usHost "-1".toList (-1) (by decide) (by decide))).1,
    (function_key_suffix usHost "100abc".toList (by decide)
      (stoi_reads usHost "100abc".toList 100 (by decide) (by decide))).1,
    (function_key_suffix usHost "x".toList (by decide)
      (stoi_throws usHost "x".toList (by decide))).1,
    (function_key_suffix usHost " -x".toList (by decide)
      (stoi_throws usHost " -x".toList (by decide))).1⟩

/-- C9 as stated fails: on the US layout the bare name `F` resolves to the
letter key `F` (code `0x46`), and `F1x`, whose suffix is not purely numeric,
resolves to `VK_F1` because `std::stoi` stops reading at the `x`. -/
theorem function_key_counterexample :
    GetVirtualKey usHost "F".toList = 0x46
    ∧ GetVirtualKey usHost "F1x".toList = VK_F1 := by
  decide

/-! ## Properties of the input loop -/

theorem inputLoop_run (H : Host) (pre post : List Line) (b : Bool) (st : InputState)
    (hpre : ∀ l ∈ pre, l.1 ≠ "done".toList) :
    inputLoop H (pre ++ ("done".toList, b) :: post) st
      = some (pre.foldl (processLine H) st) := by
  induction pre generalizing st with
  | nil => simp [inputLoop]
  | cons l t ih =>
    have hl : l.1 ≠ "done".toList := hpre l (List.mem_cons_self _ _)
    simp only [List.cons_append, inputLoop, hl, if_false, List.foldl_cons]
    exact ih _ (fun x hx => hpre x (List.mem_cons_of_mem _ hx))

theorem processLine_accepted (H : Host) (st : InputState) (l : Line)
    (h : accepted H l = true) :
    processLine H st l
      = { hotkeyManager :=
            (st.hotkeyManager.RegisterInt l.2 st.hotkeyId
              (parseCombination H l.1).fsModifiers (parseCombination H l.1).vk).2,
          hotkeyId := st.hotkeyId + 1,
          registerCalls := st.registerCalls ++
            [⟨st.hotkeyId, (parseCombination H l.1).fsModifiers,
              (parseCombination H l.1).vk, l.2⟩],
          out := st.out ++ (parseCombination H l.1).out ++
            [if l.2 then Console.hotkeyRegistered else Console.failedToRegister] } := by
  simp only [accepted, Bool.and_eq_true, bne_iff_ne, ne_eq] at h
  exact parseCombination_accepted H st l.1 l.2 h.1 h.2

theorem processLine_not_accepted (H : Host) (st : InputState) (l : Line)
    (h : accepted H l = false) :
    processLine H st l
      = { st with out := st.out ++ (parseCombination H l.1).out
                    ++ [Console.invalidKeyCombination] } := by
  apply parseCombination_rejected H st l.1 l.2
  simp only [accepted, Bool.and_eq_false_iff, bne_eq_false_iff_eq] at h
  exact h

theorem InputInvariant_init (H : Host) : InputInvariant H [] InputState.init :=
  ⟨rfl, rfl, rfl, rfl⟩

theorem InputInvariant_step (H : Host) (seen : List Line) (st : InputState) (l : Line)
    (inv : InputInvariant H seen st) :
    InputInvariant H (seen ++ [l]) (processLine H st l) := by
  cases hacc : accepted H l
  · rw [processLine_not_accepted H st l hacc]
    exact ⟨inv.ids, by simp [List.filter_append, hacc, inv.requests], inv.counter, inv.live⟩
  · rw [processLine_accepted H st l hacc]
    refine ⟨?_, ?_, ?_, ?_⟩
    · simp only [List.map_append, List.map_cons, List.map_nil, List.length_append,
        List.length_singleton, List.range_succ, inv.ids, inv.counter]
    · simp [List.filter_append, hacc, inv.requests]
    · simp only [List.length_append, List.length_singleton, inv.counter, Nat.cast_add,
        Nat.cast_one]
    · cases hr : l.2 <;>
        simp [RegisterInt_eq, hr, List.filter_append, inv.live]

theorem InputInvariant_foldl (H : Host) (lines : List Line) :
    InputInvariant H lines (lines.foldl (processLine H) InputState.init) := by
  induction lines using List.reverseRecOn with
  | nil => exact InputInvariant_init H
  | append_singleton t l ih =>
    rw [List.foldl_append]
    exact InputInvariant_step H t _ l ih

theorem ids_pairwise (n : Nat) :
    (List.map (fun k : Nat => (k : Int) + 1) (List.range n)).Pairwise (fun a b => a < b) := by
  rw [List.pairwise_map]
  exact (List.pairwise_lt_range n).imp (fun h => by omega)

/-! ## The claims about `wmain` -/

/-- C10: hotkey ids.  Take any input whose lines before the first `done` are
`pre`.  The input loop then ends, and at its end: the `Register` calls made
carry the ids `1, 2, ..., n` in order, one call for each accepted line and none
for a rejected line, whatever the operating system answered; the counter
`hotkeyId` is `n + 1`; no id is used twice; and the live collection holds the
ids of the successful calls, in strictly increasing order. -/
theorem hotkey_ids (H : Host) (pre post : List Line) (b : Bool)
    (hpre : ∀ l ∈ pre, l.1 ≠ "done".toList) :
    ∃ st, inputLoop H (pre ++ ("done".toList, b) :: post) InputState.init = some st
      ∧ st.registerCalls.map (fun c => c.id)
          = List.map (fun k : Nat => (k : Int) + 1) (List.range st.registerCalls.length)
      ∧ st.registerCalls.map (fun c => (c.fsModifiers, c.vk, c.result))
          = (pre.filter (accepted H)).map
              (fun l => ((parseCombination H l.1).fsModifiers, (parseCombination H l.1).vk, l.2))
      ∧ st.hotkeyId = ((pre.filter (accepted H)).length : Int) + 1
      ∧ (st.registerCalls.map (fun c => c.id)).Nodup
      ∧ st.hotkeyManager.hotkeyIds
          = (st.registerCalls.filter (fun c => c.result)).map (fun c => c.id)
      ∧ st.hotkeyManager.hotkeyIds.Pairwise (fun a b => a < b) := by
  have inv := InputInvariant_foldl H pre
  have hsorted : (List.map (fun c => c.id)
      (pre.foldl (processLine H) InputState.init).registerCalls).Pairwise (fun a b => a < b) := by
    rw [inv.ids]
    exact ids_pairwise _
  have hlen : (pre.foldl (processLine H) InputState.init).registerCalls.length
      = (pre.filter (accepted H)).length := by
    have := congrArg List.length inv.requests
    simpa using this
  refine ⟨_, inputLoop_run H pre post b _ hpre, inv.ids, inv.requests, ?_, ?_, inv.live, ?_⟩
  · rw [inv.counter, hlen]
  · exact hsorted.imp (fun h => ne_of_lt h)
  · rw [inv.live]
    exact hsorted.sublist ((List.filter_sublist _).map _)

/-- C10 at a concrete input: a refused line, a rejected line and an accepted
line, then `done`. -/
theorem hotkey_ids_witness :
    (∀ l ∈ [("Ctrl+F1".toList, false), ("xx".toList, true), ("Alt+F2".toList, true)],
        l.1 ≠ "done".toList)
    ∧ ∃ st, inputLoop usHost
          ([("Ctrl+F1".toList, false), ("xx".toList, true), ("Alt+F2".toList, true)]
            ++ ("done".toList, false) :: []) InputState.init = some st
      ∧ st.registerCalls.map (fun c => c.id)
          = List.map (fun k : Nat => (k : Int) + 1) (List.range st.registerCalls.length)
      ∧ st.registerCalls.map (fun c => (c.fsModifiers, c.vk, c.result))
          = ([("Ctrl+F1".toList, false), ("xx".toList, true), ("Alt+F2".toList, true)].filter
              (accepted usHost)).map
              (fun l => ((parseCombination usHost l.1).fsModifiers,
                (parseCombination usHost l.1).vk, l.2))
      ∧ st.hotkeyId
          = (([("Ctrl+F1".toList, false), ("xx".toList, true), ("Alt+F2".toList, true)].filter
              (accepted usHost)).length : Int) + 1
      ∧ (st.registerCalls.map (fun c => c.id)).Nodup
      ∧ st.hotkeyManager.hotkeyIds
          = (st.registerCalls.filter (fun c => c.result)).map (fun c => c.id)
      ∧ st.hotkeyManager.hotkeyIds.Pairwise (fun a b => a < b) :=
  ⟨by decide,
    hotkey_ids usHost [("Ctrl+F1".toList, false), ("xx".toList, true), ("Alt+F2".toList, true)]
      [] false (by decide)⟩

/-- C4, evaluated where the code departs from it.  A valid window is selected,
the only combination entered is `Ctrl+F1`, the operating system refuses it and
the user types `done`: no hotkey is registered, yet `wmain` does not return
`1`; it enters `MessageLoop` and returns `0` once `WM_QUIT` arrives, because
the test `hotkeyId == 1` counts attempts, not successes. -/
theorem wmain_all_refused (H : Host) (targetWindow : Window) :
    wmain H true targetWindow [("Ctrl+F1".toList, false), ("done".toList, false)]
        [⟨WM_QUIT, 0⟩]
      = some { code := 0, listened := true,
               registerCalls := [⟨1, MOD_CONTROL, VK_F1, false⟩],
               unregistered := [], window := targetWindow,
               out := [Console.failedToRegister, Console.listening] } := by
  rfl

end ToggleWindow
